import Mathlib

/-!
Shallow embedding of the obsidian-sticky-headings plugin sources
(`src/utils/getShownHeadings.ts`, `src/utils/makeExpectedHeadings.ts`,
`src/Plugin.ts`) together with proofs about the heading-collapse
algorithm, the two offset resolvers, the active-heading filter, the
truncation step and the settings boundary.
-/

namespace StickyHeadings

/-- A document heading: the `Heading` / `HeadingCache` record carrying the
integer rank (`level`), the raw heading text, and source-position markers. -/
structure Heading where
  level : Nat
  text : String
  startLine : Nat
  startOffset : Nat
  endLine : Nat
  deriving DecidableEq, Repr, Inhabited

/-- The display-mode setting (`'default' | 'concise'`) governing the collapse
algorithm's emission rule. -/
inductive Mode where
  | default
  | concise
  deriving DecidableEq, Repr

/-- The in-order indices of the elements satisfying `p`.  This mirrors the
`reduce` in `trivial` that pushes each index whose element is at the top
level, and the walk over rendered sections that selects heading blocks. -/
def idxWhere {α : Type} (p : α → Bool) : List α → List Nat
  | [] => []
  | a :: l => (if p a then [0] else []) ++ (idxWhere p l).map (fun i => i + 1)

/-- `topLevel` in `trivial`:
`subHeadings.reduce((res, cur) => Math.min(res, cur.level), 6)`. -/
def topLevelOf (l : List Heading) : Nat :=
  l.foldl (fun res cur => min res cur.level) 6

/-- JavaScript `xs[xs.length - 1]` as applied to `indexesOfTopLevel`. -/
def lastOf (xs : List Nat) : Option Nat :=
  xs.get? (xs.length - 1)

/-- The headings pushed onto `result` during one call of `trivial`: in
`concise` mode only the element at the last top-level index, in `default`
mode every element at a top-level index, in order. -/
def emittedAt (subHeadings : List Heading) (mode : Mode) (last : Nat) : List Heading :=
  match mode with
  | Mode.concise => (subHeadings.get? last).toList
  | Mode.default =>
      (idxWhere (fun h => h.level == topLevelOf subHeadings) subHeadings).filterMap
        (fun i => subHeadings.get? i)

/-- The recursive collapse routine `trivial` of `getShownHeadings.ts`
(lines 44-79).  The TypeScript accumulates into the caller-supplied
`result` array and the callers read that array afterwards; here the final
accumulator is returned.  When no index attains the fold's minimum — which
cannot happen while every level is at most 6, since the fold over
`Math.min` starts at 6 — the source would evaluate
`slice(undefined + 1) = slice(NaN) = slice(0)` and recurse on the whole
list forever; that branch, unreachable under the level invariant, returns
the accumulator here. -/
def trivial : List Heading → List Heading → Mode → List Heading
  | [], result, _ => result
  | x :: xs, result, mode =>
    match lastOf (idxWhere (fun h => h.level == topLevelOf (x :: xs)) (x :: xs)) with
    | none => result
    | some last =>
        trivial ((x :: xs).drop (last + 1)) (result ++ emittedAt (x :: xs) mode last) mode
termination_by l _ _ => l.length
decreasing_by
  simp only [List.length_drop, List.length_cons]
  omega

/-! ### Basic facts about `idxWhere`, `lastOf` and the `Math.min` fold -/

theorem get?_drop' {α : Type} (l : List α) (i j : Nat) :
    (l.drop i).get? j = l.get? (i + j) := by
  simp [List.get?_eq_getElem?, List.getElem?_drop]

theorem mem_idxWhere {α : Type} (p : α → Bool) (l : List α) :
    ∀ i : Nat, i ∈ idxWhere p l ↔ ∃ a, l.get? i = some a ∧ p a = true := by
  induction l with
  | nil => intro i; simp [idxWhere]
  | cons a l ih =>
    intro i
    cases i with
    | zero => by_cases hpa : p a <;> simp [idxWhere, hpa]
    | succ j => by_cases hpa : p a <;> simp [idxWhere, hpa, ih j]

theorem idxWhere_lt_length {α : Type} {p : α → Bool} {l : List α} {i : Nat}
    (h : i ∈ idxWhere p l) : i < l.length := by
  obtain ⟨a, ha, -⟩ := (mem_idxWhere p l i).mp h
  obtain ⟨hlt, -⟩ := List.get?_eq_some.mp ha
  exact hlt

theorem idxWhere_pairwise {α : Type} (p : α → Bool) :
    ∀ l : List α, (idxWhere p l).Pairwise (· < ·) := by
  intro l
  induction l with
  | nil => simp [idxWhere]
  | cons a l ih =>
    rw [idxWhere, List.pairwise_append]
    refine ⟨?_, List.Pairwise.map _ (fun x y hxy => by omega) ih, ?_⟩
    · by_cases hpa : p a <;> simp [hpa]
    · intro x hx y hy
      have hx0 : x = 0 := by
        by_cases hpa : p a <;> simp [hpa] at hx
        exact hx
      obtain ⟨k, -, hk⟩ := List.mem_map.mp hy
      omega

theorem lastOf_eq_getLast? : ∀ xs : List Nat, lastOf xs = xs.getLast? := by
  intro xs
  induction xs with
  | nil => rfl
  | cons x xs ih =>
    cases xs with
    | nil => rfl
    | cons y ys =>
      rw [List.getLast?_cons_cons, ← ih]
      simp [lastOf]

theorem lastOf_mem {xs : List Nat} {i : Nat} (h : lastOf xs = some i) : i ∈ xs := by
  rw [lastOf_eq_getLast?] at h
  exact List.mem_of_getLast?_eq_some h

theorem lastOf_isSome_of_ne_nil {xs : List Nat} (h : xs ≠ []) : ∃ i, lastOf xs = some i := by
  rw [lastOf_eq_getLast?]
  have := List.getLast?_isSome.mpr h
  exact Option.isSome_iff_exists.mp this

theorem sorted_le_getLast : ∀ xs : List Nat, xs.Pairwise (· < ·) →
    ∀ m, xs.getLast? = some m → ∀ x ∈ xs, x ≤ m := by
  intro xs
  induction xs with
  | nil => simp
  | cons x0 xs ih =>
    intro hp m hm x hx
    cases xs with
    | nil =>
      simp at hm hx
      omega
    | cons y ys =>
      rw [List.getLast?_cons_cons] at hm
      rcases List.mem_cons.mp hx with rfl | hx'
      · have hmem : m ∈ y :: ys := List.mem_of_getLast?_eq_some hm
        have := (List.pairwise_cons.mp hp).1 m hmem
        omega
      · exact ih (List.pairwise_cons.mp hp).2 m hm x hx'

theorem idxWhere_after_last {α : Type} (p : α → Bool) (l : List α) (i : Nat)
    (h : lastOf (idxWhere p l) = some i) :
    ∀ j a, i < j → l.get? j = some a → p a = false := by
  intro j a hij hja
  by_contra hpa
  have hpa' : p a = true := by
    revert hpa
    cases p a <;> simp
  have hj : j ∈ idxWhere p l := (mem_idxWhere p l j).mpr ⟨a, hja, hpa'⟩
  have hle := sorted_le_getLast _ (idxWhere_pairwise p l) i
    (by rw [← lastOf_eq_getLast?]; exact h) j hj
  omega

theorem idxWhere_filterMap_get {α : Type} (p : α → Bool) :
    ∀ l : List α, (idxWhere p l).filterMap (fun i => l.get? i) = l.filter p := by
  intro l
  induction l with
  | nil => simp [idxWhere]
  | cons a l ih =>
    rw [idxWhere, List.filterMap_append]
    simp only [List.get?_eq_getElem?] at ih
    by_cases hpa : p a <;>
      simp [hpa, List.filterMap_map, Function.comp_def, List.filter_cons,
        List.get?_eq_getElem?, ih]

theorem foldl_min_le_start : ∀ (l : List Heading) (a : Nat),
    l.foldl (fun res cur => min res cur.level) a ≤ a := by
  intro l
  induction l with
  | nil => intro a; simp
  | cons x l ih =>
    intro a
    exact le_trans (ih _) (min_le_left _ _)

theorem foldl_min_le_mem : ∀ (l : List Heading) (a : Nat), ∀ h ∈ l,
    l.foldl (fun res cur => min res cur.level) a ≤ h.level := by
  intro l
  induction l with
  | nil => simp
  | cons x l ih =>
    intro a h hmem
    rcases List.mem_cons.mp hmem with rfl | hmem'
    · exact le_trans (foldl_min_le_start l _) (min_le_right _ _)
    · exact ih _ h hmem'

theorem foldl_min_attained : ∀ (l : List Heading) (a : Nat),
    l.foldl (fun res cur => min res cur.level) a = a ∨
    ∃ h ∈ l, h.level = l.foldl (fun res cur => min res cur.level) a := by
  intro l
  induction l with
  | nil => intro a; left; rfl
  | cons x l ih =>
    intro a
    rw [List.foldl_cons]
    rcases ih (min a x.level) with heq | ⟨h, hmem, hlev⟩
    · rw [heq]
      rcases le_total a x.level with hax | hxa
      · left; exact min_eq_left hax
      · right; exact ⟨x, List.mem_cons_self x l, (min_eq_right hxa).symm⟩
    · right; exact ⟨h, List.mem_cons_of_mem _ hmem, hlev⟩

theorem topLevelOf_le_mem {l : List Heading} {h : Heading} (hm : h ∈ l) :
    topLevelOf l ≤ h.level :=
  foldl_min_le_mem l 6 h hm

theorem topLevelOf_attained {l : List Heading} (hne : l ≠ [])
    (hub : ∀ h ∈ l, h.level ≤ 6) : ∃ h ∈ l, h.level = topLevelOf l := by
  rcases foldl_min_attained l 6 with heq | hat
  · cases l with
    | nil => exact absurd rfl hne
    | cons x xs =>
      refine ⟨x, List.mem_cons_self x xs, ?_⟩
      have h1 : topLevelOf (x :: xs) ≤ x.level := topLevelOf_le_mem (List.mem_cons_self x xs)
      have h2 : x.level ≤ 6 := hub x (List.mem_cons_self x xs)
      have h3 : topLevelOf (x :: xs) = 6 := heq
      omega
  · exact hat

theorem topIdx_lastOf_isSome {l : List Heading} (hne : l ≠ [])
    (hub : ∀ h ∈ l, h.level ≤ 6) :
    ∃ i, lastOf (idxWhere (fun h => h.level == topLevelOf l) l) = some i := by
  obtain ⟨h, hmem, hlev⟩ := topLevelOf_attained hne hub
  obtain ⟨n, hn⟩ := List.mem_iff_get?.mp hmem
  have hmemIdx : n ∈ idxWhere (fun h => h.level == topLevelOf l) l :=
    (mem_idxWhere _ l n).mpr ⟨h, hn, by simp [hlev]⟩
  apply lastOf_isSome_of_ne_nil
  intro hnil
  rw [hnil] at hmemIdx
  simp at hmemIdx

/-! ### Unfolding equations and the accumulator law of `trivial` -/

theorem trivial_nil (result : List Heading) (mode : Mode) : trivial [] result mode = result := by
  rw [trivial]

theorem trivial_cons_none (x : Heading) (xs result : List Heading) (mode : Mode)
    (h : lastOf (idxWhere (fun h => h.level == topLevelOf (x :: xs)) (x :: xs)) = none) :
    trivial (x :: xs) result mode = result := by
  rw [trivial, h]

theorem trivial_cons_some (x : Heading) (xs result : List Heading) (mode : Mode) (last : Nat)
    (h : lastOf (idxWhere (fun h => h.level == topLevelOf (x :: xs)) (x :: xs)) = some last) :
    trivial (x :: xs) result mode
      = trivial ((x :: xs).drop (last + 1)) (result ++ emittedAt (x :: xs) mode last) mode := by
  rw [trivial, h]

theorem trivial_append_aux : ∀ (n : Nat) (l : List Heading), l.length ≤ n →
    ∀ (res : List Heading) (mode : Mode), trivial l res mode = res ++ trivial l [] mode := by
  intro n
  induction n with
  | zero =>
    intro l hl res mode
    have : l = [] := List.length_eq_zero.mp (Nat.le_zero.mp hl)
    subst this
    simp [trivial_nil]
  | succ n ih =>
    intro l hl res mode
    cases l with
    | nil => simp [trivial_nil]
    | cons x xs =>
      cases hlast : lastOf (idxWhere (fun h => h.level == topLevelOf (x :: xs)) (x :: xs)) with
      | none => simp [trivial_cons_none _ _ _ _ hlast]
      | some last =>
        have hdrop : ((x :: xs).drop (last + 1)).length ≤ n := by
          simp only [List.length_drop, List.length_cons] at *
          omega
        calc trivial (x :: xs) res mode
            = trivial ((x :: xs).drop (last + 1))
                (res ++ emittedAt (x :: xs) mode last) mode :=
              trivial_cons_some _ _ _ _ _ hlast
          _ = (res ++ emittedAt (x :: xs) mode last)
                ++ trivial ((x :: xs).drop (last + 1)) [] mode := ih _ hdrop _ _
          _ = res ++ (emittedAt (x :: xs) mode last
                ++ trivial ((x :: xs).drop (last + 1)) [] mode) := by simp
          _ = res ++ trivial ((x :: xs).drop (last + 1))
                (emittedAt (x :: xs) mode last) mode := by
                rw [ih _ hdrop (emittedAt (x :: xs) mode last) mode]
          _ = res ++ trivial ((x :: xs).drop (last + 1))
                ([] ++ emittedAt (x :: xs) mode last) mode := by simp
          _ = res ++ trivial (x :: xs) [] mode := by
                rw [← trivial_cons_some _ _ _ _ _ hlast]

theorem trivial_eq_append (l res : List Heading) (mode : Mode) :
    trivial l res mode = res ++ trivial l [] mode :=
  trivial_append_aux l.length l le_rfl res mode

theorem trivial_cons_step (x : Heading) (xs : List Heading) (mode : Mode) (last : Nat)
    (h : lastOf (idxWhere (fun h => h.level == topLevelOf (x :: xs)) (x :: xs)) = some last) :
    trivial (x :: xs) [] mode
      = emittedAt (x :: xs) mode last ++ trivial ((x :: xs).drop (last + 1)) [] mode := by
  rw [trivial_cons_some _ _ _ _ _ h, trivial_eq_append]
  simp

/-! ### The emitted block sits inside the processed region -/

theorem filter_eq_filter_take {α : Type} (p : α → Bool) (l : List α) (last : Nat)
    (hafter : ∀ j b, last < j → l.get? j = some b → p b = false) :
    l.filter p = (l.take (last + 1)).filter p := by
  conv_lhs => rw [← List.take_append_drop (last + 1) l]
  rw [List.filter_append]
  have hnil : (l.drop (last + 1)).filter p = [] := by
    rw [List.filter_eq_nil_iff]
    intro b hb
    obtain ⟨j, hj⟩ := List.mem_iff_get?.mp hb
    rw [get?_drop'] at hj
    simp [hafter (last + 1 + j) b (by omega) hj]
  rw [hnil, List.append_nil]

theorem emittedAt_sublist_take {l : List Heading} {last : Nat} (mode : Mode)
    (h : lastOf (idxWhere (fun h => h.level == topLevelOf l) l) = some last) :
    (emittedAt l mode last).Sublist (l.take (last + 1)) := by
  have hmem : last ∈ idxWhere (fun h => h.level == topLevelOf l) l := lastOf_mem h
  obtain ⟨a, ha, hpa⟩ := (mem_idxWhere _ l last).mp hmem
  cases mode with
  | concise =>
    rw [emittedAt, ha]
    have hta : (l.take (last + 1)).get? last = some a := by
      rw [List.get?_take (Nat.lt_succ_self last)]
      exact ha
    exact List.singleton_sublist.mpr (List.get?_mem hta)
  | default =>
    rw [emittedAt, idxWhere_filterMap_get,
      filter_eq_filter_take _ l last (idxWhere_after_last _ l last h)]
    exact List.filter_sublist _

theorem trivial_sublist_aux : ∀ (n : Nat) (l : List Heading), l.length ≤ n →
    ∀ mode : Mode, (trivial l [] mode).Sublist l := by
  intro n
  induction n with
  | zero =>
    intro l hl mode
    have : l = [] := List.length_eq_zero.mp (Nat.le_zero.mp hl)
    subst this
    simp [trivial_nil]
  | succ n ih =>
    intro l hl mode
    cases l with
    | nil => simp [trivial_nil]
    | cons x xs =>
      cases hlast : lastOf (idxWhere (fun h => h.level == topLevelOf (x :: xs)) (x :: xs)) with
      | none => simp [trivial_cons_none _ _ _ _ hlast]
      | some last =>
        rw [trivial_cons_step _ _ _ _ hlast]
        have hdrop : ((x :: xs).drop (last + 1)).length ≤ n := by
          simp only [List.length_drop, List.length_cons] at *
          omega
        have h1 := emittedAt_sublist_take mode hlast
        have h2 := ih _ hdrop mode
        have := List.Sublist.append h1 h2
        rwa [List.take_append_drop] at this

theorem trivial_sublist (l : List Heading) (mode : Mode) :
    (trivial l [] mode).Sublist l :=
  trivial_sublist_aux l.length l le_rfl mode

/-! ### The collapse operation as the specification words it -/

/-- The minimum `level` value present in a non-empty heading sequence, stated
the way the specification does (the `0` returned for an empty sequence is
never queried by the collapse). -/
def specTopLevel (l : List Heading) : Nat :=
  match l.map Heading.level with
  | [] => 0
  | v :: vs => vs.foldl min v

/-- The collapse operation exactly as claim C1 describes it: the empty
sequence for empty input; otherwise, with `topLevel` the minimum level
present and `topIndices` the in-order indices of the elements at
`topLevel`, emit the single element at the last index of `topIndices` in
`concise` mode or every element of `topIndices` in order in `default`
mode, followed by the collapse of the subsequence strictly after the last
index of `topIndices`. -/
def collapseSpec (mode : Mode) : List Heading → List Heading
  | [] => []
  | x :: xs =>
    match lastOf (idxWhere (fun h => h.level == specTopLevel (x :: xs)) (x :: xs)) with
    | none => []
    | some last =>
        (match mode with
          | Mode.concise => ((x :: xs).get? last).toList
          | Mode.default =>
              (idxWhere (fun h => h.level == specTopLevel (x :: xs)) (x :: xs)).filterMap
                (fun i => (x :: xs).get? i))
          ++ collapseSpec mode ((x :: xs).drop (last + 1))
termination_by l => l.length
decreasing_by
  simp only [List.length_drop, List.length_cons]
  omega

theorem collapseSpec_nil (mode : Mode) : collapseSpec mode [] = [] := by
  rw [collapseSpec]

theorem collapseSpec_cons_none (mode : Mode) (x : Heading) (xs : List Heading)
    (h : lastOf (idxWhere (fun h => h.level == specTopLevel (x :: xs)) (x :: xs)) = none) :
    collapseSpec mode (x :: xs) = [] := by
  rw [collapseSpec, h]

theorem collapseSpec_cons_some (mode : Mode) (x : Heading) (xs : List Heading) (last : Nat)
    (h : lastOf (idxWhere (fun h => h.level == specTopLevel (x :: xs)) (x :: xs)) = some last) :
    collapseSpec mode (x :: xs)
      = (match mode with
          | Mode.concise => ((x :: xs).get? last).toList
          | Mode.default =>
              (idxWhere (fun h => h.level == specTopLevel (x :: xs)) (x :: xs)).filterMap
                (fun i => (x :: xs).get? i))
        ++ collapseSpec mode ((x :: xs).drop (last + 1)) := by
  rw [collapseSpec, h]

theorem foldl_min_start_min : ∀ (l : List Heading) (a b : Nat),
    l.foldl (fun res cur => min res cur.level) (min a b)
      = min a (l.foldl (fun res cur => min res cur.level) b) := by
  intro l
  induction l with
  | nil => intro a b; rfl
  | cons x l ih =>
    intro a b
    rw [List.foldl_cons, List.foldl_cons, min_assoc, ih]

theorem specTopLevel_cons (x : Heading) (xs : List Heading) :
    specTopLevel (x :: xs) = xs.foldl (fun res cur => min res cur.level) x.level := by
  simp [specTopLevel, List.foldl_map]

theorem topLevelOf_eq_spec {l : List Heading} (hne : l ≠ [])
    (hub : ∀ h ∈ l, h.level ≤ 6) : topLevelOf l = specTopLevel l := by
  cases l with
  | nil => exact absurd rfl hne
  | cons x xs =>
    rw [specTopLevel_cons]
    have h1 : topLevelOf (x :: xs)
        = xs.foldl (fun res cur => min res cur.level) (min 6 x.level) := by
      rw [topLevelOf, List.foldl_cons]
    have h2 : xs.foldl (fun res cur => min res cur.level) x.level ≤ 6 :=
      le_trans (foldl_min_le_start xs x.level) (hub x (List.mem_cons_self x xs))
    rw [h1, foldl_min_start_min]
    exact min_eq_right h2

theorem collapse_eq_spec_aux : ∀ (n : Nat) (l : List Heading), l.length ≤ n →
    (∀ h ∈ l, 1 ≤ h.level ∧ h.level ≤ 6) →
    ∀ mode : Mode, trivial l [] mode = collapseSpec mode l := by
  intro n
  induction n with
  | zero =>
    intro l hl _ mode
    have : l = [] := List.length_eq_zero.mp (Nat.le_zero.mp hl)
    subst this
    rw [trivial_nil, collapseSpec_nil]
  | succ n ih =>
    intro l hl hlev mode
    cases l with
    | nil => rw [trivial_nil, collapseSpec_nil]
    | cons x xs =>
      have hub : ∀ h ∈ x :: xs, h.level ≤ 6 := fun h hm => (hlev h hm).2
      have hts : topLevelOf (x :: xs) = specTopLevel (x :: xs) :=
        topLevelOf_eq_spec (by simp) hub
      cases hlast : lastOf (idxWhere (fun h => h.level == topLevelOf (x :: xs)) (x :: xs)) with
      | none =>
        have hlast' :
            lastOf (idxWhere (fun h => h.level == specTopLevel (x :: xs)) (x :: xs)) = none := by
          rw [← hts]
          exact hlast
        rw [trivial_cons_none _ _ _ _ hlast, collapseSpec_cons_none _ _ _ hlast']
      | some last =>
        have hlast' :
            lastOf (idxWhere (fun h => h.level == specTopLevel (x :: xs)) (x :: xs))
              = some last := by
          rw [← hts]
          exact hlast
        rw [trivial_cons_step _ _ _ _ hlast, collapseSpec_cons_some _ _ _ _ hlast']
        have hdrop : ((x :: xs).drop (last + 1)).length ≤ n := by
          simp only [List.length_drop, List.length_cons] at *
          omega
        have hlevd : ∀ h ∈ (x :: xs).drop (last + 1), 1 ≤ h.level ∧ h.level ≤ 6 :=
          fun h hm => hlev h (List.drop_subset _ _ hm)
        rw [← ih _ hdrop hlevd mode]
        cases mode <;> simp [emittedAt, hts]

/-! ### Concrete headings for the specification's concrete scenarios -/

def hdA : Heading := ⟨1, "A", 0, 0, 0⟩

def hdA1 : Heading := ⟨2, "A.1", 1, 10, 1⟩

def hdA2 : Heading := ⟨2, "A.2", 2, 20, 2⟩

def hdB : Heading := ⟨1, "B", 3, 30, 3⟩

/-! ### Claims C1, C2, C3 -/

/-- Claim C1: for level values in `[1,6]` and either display mode, the
collapse routine `trivial` (run with an empty accumulator) computes
exactly the recursion the specification describes: the empty sequence for
empty input; otherwise the elements at the minimum level present — all of
them in `default` mode, only the one at the last top index in `concise`
mode — followed by the collapse of the subsequence strictly after the
last top index. -/
theorem trivial_agrees_with_collapseSpec (l : List Heading) (mode : Mode)
    (hlev : ∀ h ∈ l, 1 ≤ h.level ∧ h.level ≤ 6) :
    trivial l [] mode = collapseSpec mode l :=
  collapse_eq_spec_aux l.length l le_rfl hlev mode

theorem trivial_agrees_with_collapseSpec_witness :
    (∀ h ∈ [hdA, hdA1, hdA2, hdB], 1 ≤ h.level ∧ h.level ≤ 6)
    ∧ trivial [hdA, hdA1, hdA2, hdB] [] Mode.concise
        = collapseSpec Mode.concise [hdA, hdA1, hdA2, hdB] :=
  ⟨by decide, trivial_agrees_with_collapseSpec _ _ (by decide)⟩

/-- Claim C2: on the candidate sequence `[H1 "A", H2 "A.1", H2 "A.2", H1 "B"]`
the collapse returns `[H1 "A", H1 "B"]` in `default` mode and `[H1 "B"]`
in `concise` mode. -/
theorem trivial_concrete_scenarios :
    trivial [hdA, hdA1, hdA2, hdB] [] Mode.default = [hdA, hdB]
    ∧ trivial [hdA, hdA1, hdA2, hdB] [] Mode.concise = [hdB] := by
  constructor <;>
    simp [trivial, lastOf, idxWhere, topLevelOf, emittedAt, hdA, hdA1, hdA2, hdB]

/-- Claim C3: for every input sequence, accumulator and mode, the block that
the collapse appends to the accumulator is a subsequence of the input:
`trivial l res mode` is `res` followed by `trivial l [] mode`, and the
latter is a sublist of `l` (same relative order, no fabricated
elements). -/
theorem trivial_output_sublist (l res : List Heading) (mode : Mode) :
    trivial l res mode = res ++ trivial l [] mode
    ∧ (trivial l [] mode).Sublist l :=
  ⟨trivial_eq_append l res mode, trivial_sublist l mode⟩

/-! ### Level structure of the collapse output (claims C9, C10) -/

theorem mem_emittedAt_level {l : List Heading} {last : Nat} {mode : Mode}
    (h : lastOf (idxWhere (fun h => h.level == topLevelOf l) l) = some last) :
    ∀ b ∈ emittedAt l mode last, b.level = topLevelOf l := by
  intro b hb
  cases mode with
  | concise =>
    have hmem : last ∈ idxWhere (fun h => h.level == topLevelOf l) l := lastOf_mem h
    obtain ⟨a, ha, hpa⟩ := (mem_idxWhere _ l last).mp hmem
    rw [emittedAt, ha] at hb
    simp at hb
    subst hb
    simpa using hpa
  | default =>
    rw [emittedAt, idxWhere_filterMap_get] at hb
    have := List.mem_filter.mp hb
    simpa using this.2

theorem mem_collapse_drop_level {l : List Heading} {last : Nat} {mode : Mode}
    (h : lastOf (idxWhere (fun h => h.level == topLevelOf l) l) = some last) :
    ∀ b ∈ trivial (l.drop (last + 1)) [] mode, topLevelOf l < b.level := by
  intro b hb
  have hbd : b ∈ l.drop (last + 1) := (trivial_sublist _ mode).subset hb
  have hbl : b ∈ l := List.drop_subset _ _ hbd
  have hge : topLevelOf l ≤ b.level := topLevelOf_le_mem hbl
  obtain ⟨j, hj⟩ := List.mem_iff_get?.mp hbd
  rw [get?_drop'] at hj
  have hne := idxWhere_after_last _ l last h (last + 1 + j) b (by omega) hj
  have : b.level ≠ topLevelOf l := by simpa using hne
  omega

theorem chain'_le_of_const {L : List Heading} {t : Nat}
    (hL : ∀ b ∈ L, b.level = t) :
    List.Chain' (fun a b => a.level ≤ b.level) L := by
  induction L with
  | nil => simp
  | cons a L ih =>
    cases L with
    | nil => simp
    | cons b L' =>
      rw [List.chain'_cons]
      refine ⟨?_, ih (fun c hc => hL c (List.mem_cons_of_mem a hc))⟩
      rw [hL a (List.mem_cons_self a (b :: L')),
        hL b (List.mem_cons_of_mem a (List.mem_cons_self b L'))]

theorem collapse_chain_aux : ∀ (n : Nat) (l : List Heading), l.length ≤ n →
    (∀ h ∈ l, h.level ≤ 6) →
    List.Chain' (fun a b => a.level < b.level) (trivial l [] Mode.concise)
    ∧ List.Chain' (fun a b => a.level ≤ b.level) (trivial l [] Mode.default) := by
  intro n
  induction n with
  | zero =>
    intro l hl _
    have : l = [] := List.length_eq_zero.mp (Nat.le_zero.mp hl)
    subst this
    simp [trivial_nil]
  | succ n ih =>
    intro l hl hub
    cases l with
    | nil => simp [trivial_nil]
    | cons x xs =>
      cases hlast : lastOf (idxWhere (fun h => h.level == topLevelOf (x :: xs)) (x :: xs)) with
      | none => simp [trivial_cons_none _ _ _ _ hlast]
      | some last =>
        have hdrop : ((x :: xs).drop (last + 1)).length ≤ n := by
          simp only [List.length_drop, List.length_cons] at *
          omega
        have hubd : ∀ h ∈ (x :: xs).drop (last + 1), h.level ≤ 6 :=
          fun h hm => hub h (List.drop_subset _ _ hm)
        obtain ⟨ihc, ihd⟩ := ih _ hdrop hubd
        constructor
        · rw [trivial_cons_step _ _ _ _ hlast]
          refine List.Chain'.append ?_ ihc ?_
          · cases hget : (x :: xs)[last]? <;>
              simp [emittedAt, List.get?_eq_getElem?, hget]
          · intro a ha b hb
            have ha' : a ∈ emittedAt (x :: xs) Mode.concise last :=
              List.mem_of_getLast?_eq_some (Option.mem_def.mp ha)
            have hb' : b ∈ trivial ((x :: xs).drop (last + 1)) [] Mode.concise :=
              List.mem_of_mem_head? hb
            have h1 := mem_emittedAt_level hlast a ha'
            have h2 := mem_collapse_drop_level hlast b hb'
            omega
        · rw [trivial_cons_step _ _ _ _ hlast]
          refine List.Chain'.append (chain'_le_of_const (mem_emittedAt_level hlast)) ihd ?_
          intro a ha b hb
          have ha' : a ∈ emittedAt (x :: xs) Mode.default last :=
            List.mem_of_getLast?_eq_some (Option.mem_def.mp ha)
          have hb' : b ∈ trivial ((x :: xs).drop (last + 1)) [] Mode.default :=
            List.mem_of_mem_head? hb
          have h1 := mem_emittedAt_level hlast a ha'
          have h2 := mem_collapse_drop_level hlast b hb'
          omega

/-- Claim C10: with all levels in `[1,6]`, the collapse output has strictly
increasing level values in `concise` mode and non-decreasing level values
in `default` mode. -/
theorem collapse_levels_monotone (l : List Heading)
    (hlev : ∀ h ∈ l, 1 ≤ h.level ∧ h.level ≤ 6) :
    List.Chain' (fun a b => a.level < b.level) (trivial l [] Mode.concise)
    ∧ List.Chain' (fun a b => a.level ≤ b.level) (trivial l [] Mode.default) :=
  collapse_chain_aux l.length l le_rfl (fun h hm => (hlev h hm).2)

theorem collapse_levels_monotone_witness :
    (∀ h ∈ [hdA, hdA1, hdA2, hdB], 1 ≤ h.level ∧ h.level ≤ 6)
    ∧ (List.Chain' (fun a b => a.level < b.level)
        (trivial [hdA, hdA1, hdA2, hdB] [] Mode.concise)
      ∧ List.Chain' (fun a b => a.level ≤ b.level)
        (trivial [hdA, hdA1, hdA2, hdB] [] Mode.default)) :=
  ⟨by decide, collapse_levels_monotone _ (by decide)⟩

/-- Claim C9: on a non-empty candidate sequence whose levels are in `[1,6]`,
the collapse recursion steps to a strictly shorter sequence: the minimum
level is attained at some index, `i` is the last such index, and
`trivial` recurses on the subsequence strictly after `i`, whose length is
strictly smaller, so the recursion reaches the empty sequence. -/
theorem collapse_step_decreases (l : List Heading) (hne : l ≠ [])
    (hlev : ∀ h ∈ l, 1 ≤ h.level ∧ h.level ≤ 6) :
    ∃ i, lastOf (idxWhere (fun h => h.level == topLevelOf l) l) = some i
      ∧ (∃ h, l.get? i = some h ∧ h.level = topLevelOf l)
      ∧ (l.drop (i + 1)).length < l.length
      ∧ ∀ (res : List Heading) (mode : Mode),
          trivial l res mode = trivial (l.drop (i + 1)) (res ++ emittedAt l mode i) mode := by
  obtain ⟨i, hi⟩ := topIdx_lastOf_isSome hne (fun h hm => (hlev h hm).2)
  refine ⟨i, hi, ?_, ?_, ?_⟩
  · obtain ⟨a, ha, hpa⟩ := (mem_idxWhere _ l i).mp (lastOf_mem hi)
    exact ⟨a, ha, by simpa using hpa⟩
  · have hlen : l.length ≠ 0 := fun h0 => hne (List.length_eq_zero.mp h0)
    simp only [List.length_drop]
    omega
  · intro res mode
    cases l with
    | nil => exact absurd rfl hne
    | cons x xs => exact trivial_cons_some _ _ _ _ _ hi

theorem collapse_step_decreases_witness :
    ([hdA, hdB] ≠ ([] : List Heading))
    ∧ (∀ h ∈ [hdA, hdB], 1 ≤ h.level ∧ h.level ≤ 6)
    ∧ ∃ i, lastOf (idxWhere (fun h => h.level == topLevelOf [hdA, hdB]) [hdA, hdB]) = some i
        ∧ (∃ h, [hdA, hdB].get? i = some h ∧ h.level = topLevelOf [hdA, hdB])
        ∧ ([hdA, hdB].drop (i + 1)).length < [hdA, hdB].length
        ∧ ∀ (res : List Heading) (mode : Mode),
            trivial [hdA, hdB] res mode
              = trivial ([hdA, hdB].drop (i + 1)) (res ++ emittedAt [hdA, hdB] mode i) mode :=
  ⟨by decide, by decide, collapse_step_decreases _ (by decide) (by decide)⟩

/-! ### The two offset resolvers (`getShownHeadings.ts` lines 7-42) -/

/-- One rendered content block of the preview renderer
(`view.previewMode.renderer.sections`): its html text and its height
(with `height = 0` standing in when the property is undefined). -/
structure SectionBlock where
  html : List Char
  height : Int
  deriving DecidableEq, Repr

/-- The test `/^<h[1-6]/i.test(html)`: the html starts with `<`, then `h` or
`H`, then a digit between `1` and `6`. -/
def isHeadingHtml : List Char → Bool
  | '<' :: c :: d :: _ => (c == 'h' || c == 'H') && ('1' ≤ d && d ≤ '6')
  | _ => false

/-- A heading paired with its resolved vertical offset. -/
structure PositionedHeading where
  heading : Heading
  offset : Int
  deriving DecidableEq, Repr

/-- The `forEach` walk of `getHeadingsWithOffsetPreview`: accumulate
`heightSum` over the rendered sections, pushing the running sum as the
next recorded heading offset whenever a block is a heading (the sum is
pushed before the block's own height is added). -/
def collectOffsets : List SectionBlock → Int → List Int
  | [], _ => []
  | s :: rest, heightSum =>
    (if isHeadingHtml s.html then [heightSum] else [])
      ++ collectOffsets rest (heightSum + s.height)

/-- `headings.map((heading, index) => ({ heading, offset: headingsOffset[index] || 0 }))`:
pair the heading at `index` with the offset recorded for the `index`-th
heading block, defaulting to `0` when there is none. -/
def withOffsets (headingsOffset : List Int) : List Heading → Nat → List PositionedHeading
  | [], _ => []
  | h :: rest, index =>
    ⟨h, (headingsOffset.get? index).getD 0⟩ :: withOffsets headingsOffset rest (index + 1)

/-- `getHeadingsWithOffsetPreview` (`getShownHeadings.ts` lines 7-24), with
the view snapshot supplied as its ordered list of rendered sections. -/
def getHeadingsWithOffsetPreview (headings : List Heading) (sections : List SectionBlock) :
    List PositionedHeading :=
  withOffsets (collectOffsets sections 0) headings 0

/-- The view snapshot consumed by the source-mode resolver: the
`.cm-contentContainer` offset (`none` when `querySelector` returns no
element) and the per-start-offset line-block `top` lookup (`none` when the
destructured `top` is undefined). -/
structure SourceView where
  containerOffsetTop : Option Int
  lineBlockTop : Nat → Option Int

/-- `getHeadingsWithOffsetSource` (`getShownHeadings.ts` lines 26-42): for
each heading, `offset = containerOffsetTop || 0`, `top` from
`lineBlockAt(position.start.offset)` defaulting to `0`, and the pair
`{ heading, offset: top + offset }` is pushed. -/
def getHeadingsWithOffsetSource (headings : List Heading) (view : SourceView) :
    List PositionedHeading :=
  headings.map (fun heading =>
    ⟨heading, (view.lineBlockTop heading.startOffset).getD 0
      + view.containerOffsetTop.getD 0⟩)

theorem withOffsets_map_heading (off : List Int) :
    ∀ (hs : List Heading) (k : Nat),
      (withOffsets off hs k).map PositionedHeading.heading = hs := by
  intro hs
  induction hs with
  | nil => intro k; rfl
  | cons h rest ih => intro k; simp [withOffsets, ih]

theorem withOffsets_get? (off : List Int) :
    ∀ (hs : List Heading) (k i : Nat),
      (withOffsets off hs k).get? i
        = (hs.get? i).map (fun h => ⟨h, (off.get? (k + i)).getD 0⟩) := by
  intro hs
  induction hs with
  | nil => intro k i; simp [withOffsets]
  | cons h rest ih =>
    intro k i
    cases i with
    | zero => simp [withOffsets]
    | succ j =>
      have harith : (k + 1) + j = k + (j + 1) := by omega
      rw [withOffsets, List.get?_cons_succ, ih (k + 1) j, harith, List.get?_cons_succ]

theorem collectOffsets_get? :
    ∀ (sections : List SectionBlock) (acc : Int) (i j : Nat),
      (idxWhere (fun s => isHeadingHtml s.html) sections).get? i = some j →
      (collectOffsets sections acc).get? i
        = some (acc + ((sections.take j).map SectionBlock.height).sum) := by
  intro sections
  induction sections with
  | nil => intro acc i j h; simp [idxWhere] at h
  | cons s rest ih =>
    intro acc i j h
    by_cases hp : isHeadingHtml s.html
    · cases i with
      | zero =>
        rw [idxWhere] at h
        simp [hp] at h
        subst h
        simp [collectOffsets, hp]
      | succ i' =>
        rw [idxWhere] at h
        simp only [hp, if_true, List.singleton_append, List.get?_cons_succ,
          List.get?_map] at h
        obtain ⟨j', hj', hjj⟩ := Option.map_eq_some'.mp h
        subst hjj
        rw [collectOffsets]
        simp only [hp, if_true, List.singleton_append, List.get?_cons_succ]
        rw [ih (acc + s.height) i' j' hj']
        simp [List.take_succ_cons, add_assoc]
    · rw [idxWhere] at h
      rw [if_neg hp, List.nil_append, List.get?_map] at h
      obtain ⟨j', hj', hjj⟩ := Option.map_eq_some'.mp h
      subst hjj
      rw [collectOffsets, if_neg hp, List.nil_append]
      rw [ih (acc + s.height) i j' hj']
      simp [List.take_succ_cons, add_assoc]

/-! ### Claims C6, C7 -/

/-- Claim C6: the preview-mode resolver returns exactly one positioned
heading per input heading, in order; the `i`-th recorded heading-block
offset is the sum of the heights of all blocks strictly before that
heading block; and when fewer heading blocks are rendered than there are
headings, the trailing unmatched headings get offset `0`. -/
theorem preview_offsets_cumulative (headings : List Heading) (sections : List SectionBlock) :
    ((getHeadingsWithOffsetPreview headings sections).map PositionedHeading.heading = headings)
    ∧ (∀ i j, (idxWhere (fun s => isHeadingHtml s.html) sections).get? i = some j →
        (collectOffsets sections 0).get? i
          = some (((sections.take j).map SectionBlock.height).sum))
    ∧ (∀ i h, headings.get? i = some h → (collectOffsets sections 0).get? i = none →
        (getHeadingsWithOffsetPreview headings sections).get? i = some ⟨h, 0⟩) := by
  refine ⟨withOffsets_map_heading _ headings 0, ?_, ?_⟩
  · intro i j hij
    have := collectOffsets_get? sections 0 i j hij
    simpa using this
  · intro i h hh hnone
    rw [List.get?_eq_getElem?] at hnone
    rw [getHeadingsWithOffsetPreview, withOffsets_get?, hh]
    simp [hnone]

def sbText : SectionBlock := ⟨['p'], 5⟩

def sbHead : SectionBlock := ⟨['<', 'h', '2'], 7⟩

theorem preview_offsets_cumulative_witness :
    ((idxWhere (fun s => isHeadingHtml s.html) [sbText, sbHead]).get? 0 = some 1
      ∧ (collectOffsets [sbText, sbHead] 0).get? 0
          = some ((([sbText, sbHead].take 1).map SectionBlock.height).sum))
    ∧ ([hdA, hdB].get? 1 = some hdB
      ∧ (collectOffsets [sbText, sbHead] 0).get? 1 = none
      ∧ (getHeadingsWithOffsetPreview [hdA, hdB] [sbText, sbHead]).get? 1 = some ⟨hdB, 0⟩) :=
  ⟨⟨by decide,
    (preview_offsets_cumulative [hdA, hdB] [sbText, sbHead]).2.1 0 1 (by decide)⟩,
   ⟨by decide, by decide,
    (preview_offsets_cumulative [hdA, hdB] [sbText, sbHead]).2.2 1 hdB (by decide) (by decide)⟩⟩

/-- A view snapshot offering no container element and no line-block data. -/
def emptySourceView : SourceView := ⟨none, fun _ => none⟩

/-- Claim C7: offset resolution never aborts in either strategy: both
resolvers return exactly one positioned heading per input heading, in
the input order, and a heading whose vertical position cannot be obtained
from the view (no container offset, no line-block top) resolves to offset
`0` instead of failing the call. -/
theorem offset_resolution_total (headings : List Heading) (view : SourceView)
    (sections : List SectionBlock) :
    ((getHeadingsWithOffsetSource headings view).map PositionedHeading.heading = headings)
    ∧ ((getHeadingsWithOffsetPreview headings sections).map PositionedHeading.heading = headings)
    ∧ (∀ i h, headings.get? i = some h → view.lineBlockTop h.startOffset = none →
        view.containerOffsetTop = none →
        (getHeadingsWithOffsetSource headings view).get? i = some ⟨h, 0⟩) := by
  refine ⟨?_, withOffsets_map_heading _ headings 0, ?_⟩
  · simp [getHeadingsWithOffsetSource, List.map_map, Function.comp_def]
  · intro i h hh htop hcont
    rw [getHeadingsWithOffsetSource, List.get?_map, hh]
    simp [htop, hcont]

theorem offset_resolution_total_witness :
    ([hdA].get? 0 = some hdA)
    ∧ emptySourceView.lineBlockTop hdA.startOffset = none
    ∧ emptySourceView.containerOffsetTop = none
    ∧ (getHeadingsWithOffsetSource [hdA] emptySourceView).get? 0 = some ⟨hdA, 0⟩ :=
  ⟨by decide, rfl, rfl,
    (offset_resolution_total [hdA] emptySourceView []).2.2 0 hdA (by decide) rfl rfl⟩

/-! ### Claim C5: the active-heading filter -/

/-- Modelled from the spec: the four-argument
`getShownHeadings(headings, view, stickyContainerHeight, settings)` that
`renderHeadings` invokes is missing from the repository's source files —
only its caller is present — so its active-heading filter is taken from
the specification's words: select the headings whose resolved offset is
at most `scrollTop + stickyBandHeight`, testing each heading
independently against that threshold and preserving input order. -/
def filterActive (positioned : List PositionedHeading) (scrollTop stickyBandHeight : Int) :
    List PositionedHeading :=
  positioned.filter (fun p => p.offset ≤ scrollTop + stickyBandHeight)

/-- Claim C5: the active-heading filter keeps exactly the headings whose
resolved offset is at most `scrollTop + stickyBandHeight` — membership is
decided for each heading independently by that threshold, with no
sortedness assumption — and the selection is an order-preserving sublist
of the input. -/
theorem filterActive_selects_by_threshold (positioned : List PositionedHeading)
    (scrollTop stickyBandHeight : Int) :
    (filterActive positioned scrollTop stickyBandHeight).Sublist positioned
    ∧ ∀ p, p ∈ filterActive positioned scrollTop stickyBandHeight ↔
        p ∈ positioned ∧ p.offset ≤ scrollTop + stickyBandHeight := by
  refine ⟨List.filter_sublist _, fun p => ?_⟩
  simp [filterActive, List.mem_filter]

/-! ### Claim C4: the truncation of `makeExpectedHeadings` -/

/-- `makeExpectedHeadings` (`makeExpectedHeadings.ts` lines 4-18): slice the
first `index` headings, collapse them, and return the result.  The source
then evaluates `result.slice(-max)` when `max` is truthy but discards the
returned array (`Array.prototype.slice` does not mutate), so the result
is returned untruncated whatever `max` is. -/
def makeExpectedHeadings (headings : List Heading) (max : Int) (mode : Mode) :
    Nat → List Heading :=
  fun index => trivial (headings.take index) [] mode

/-- Claim C4 (code bug): with `max = 1` the function produced by
`makeExpectedHeadings` still returns all three collapsed headings,
because the source's `result.slice(-max)` discards its return value; the
claimed bound `length ≤ max` fails at this input. -/
theorem makeExpectedHeadings_ignores_max :
    makeExpectedHeadings [hdA, hdA1, hdA2] 1 Mode.default 3 = [hdA, hdA1, hdA2]
    ∧ (makeExpectedHeadings [hdA, hdA1, hdA2] 1 Mode.default 3).length = 3 := by
  constructor <;>
    simp [makeExpectedHeadings, trivial, lastOf, idxWhere, topLevelOf, emittedAt,
      hdA, hdA1, hdA2]

/-! ### Claim C8: the settings boundary for `max` -/

/-- The boundary parse of the `max` settings text field (`Plugin.ts`):
`parseInt(value, 10) || 0`, with `none` standing for `NaN`. -/
def jsParseIntOr0 (parsed : Option Int) : Int :=
  match parsed with
  | none => 0
  | some n => if n == 0 then 0 else n

/-- JavaScript `Array.prototype.slice(start)` with a single, possibly
negative argument: a negative start counts from the end of the array
(clamped at 0) and a non-negative start skips that many leading elements
(clamped at the length). -/
def jsSliceFrom {α : Type} (start : Int) (l : List α) : List α :=
  if start < 0 then l.drop (((l.length : Int) + start).toNat) else l.drop start.toNat

/-- The truncation step of `renderHeadings` (`Plugin.ts` lines 201-203):
`if (this.settings.max) finalHeadings = finalHeadings.slice(-this.settings.max)`
(`if` takes the truthy branch for any non-zero number). -/
def renderTrunc (maxSetting : Int) (l : List Heading) : List Heading :=
  if maxSetting == 0 then l else jsSliceFrom (-maxSetting) l

/-- Claim C8 (code bug): the boundary keeps a negative `max`: parsing the
settings text `"-3"` yields `-3` — only `NaN` is caught by `|| 0` — and
the truncation step run with `max = -3` empties a two-element stack (it
drops leading elements) instead of behaving as unlimited; `max = 0`
really is unlimited. -/
theorem negative_max_not_normalized :
    jsParseIntOr0 (some (-3)) = -3
    ∧ renderTrunc (jsParseIntOr0 (some (-3))) [hdA, hdB] = []
    ∧ renderTrunc 0 [hdA, hdB] = [hdA, hdB] := by
  refine ⟨by decide, by decide, by decide⟩

end StickyHeadings
